import Mathlib

set_option maxHeartbeats 1000000
set_option maxRecDepth 100000

/-
Verification of the budget forecasting program (src/main.rs of rust-budget).

Embedding conventions:
* `chrono::NaiveDate` is embedded as a `Date` record over the proleptic
  Gregorian calendar (year, month, day).  Adding `Duration::days k` (and
  `Duration::weeks k`, which is `7 * k` days) is `addDays k`, the k-fold
  calendar-successor; the `Ord` instance of `NaiveDate` is the
  lexicographic (year, month, day) order `Date.le` / `Date.lt`;
  `with_day(1)` is `withDay1` (total, since day 1 is valid in every month).
* `f64` amounts are embedded as exact rationals (the spec calls them
  signed decimals; the claims under proof are exact-arithmetic identities).
* The `VecDeque` consumed from the front becomes explicit list recursion;
  the stable slice sort `sort_by_key(|t| t.date)` becomes the stable
  `List.insertionSort` over the date order.
* Functions whose only failure signal is a printed line
  (`delete_transaction`, `edit_transaction`) return the list of printed
  lines next to the new state; `forecast` returns the `month_balances`
  vector that it prints; the file-reading and JSON-parsing collaborators
  of `load_from_file` are passed in as explicit oracles.
-/

/-- Gregorian leap-year test, as used by chrono. -/
def isLeap (y : Int) : Bool :=
  (y % 4 == 0 && y % 100 != 0) || y % 400 == 0

/-- Number of days in month `m` of year `y` (Gregorian calendar). -/
def monthLen (y : Int) (m : Nat) : Nat :=
  if m = 2 then (if isLeap y then 29 else 28)
  else if m = 4 ∨ m = 6 ∨ m = 9 ∨ m = 11 then 30
  else 31

/-- A calendar date: the embedding of `chrono::NaiveDate`. -/
@[ext] structure Date where
  year : Int
  month : Nat
  day : Nat

deriving instance DecidableEq for Date

/-- The dates a `chrono::NaiveDate` can hold: month and day in range. -/
def Date.Valid (x : Date) : Prop :=
  1 ≤ x.month ∧ x.month ≤ 12 ∧ 1 ≤ x.day ∧ x.day ≤ monthLen x.year x.month

instance (x : Date) : Decidable x.Valid := by
  unfold Date.Valid; exact inferInstance

/-- Strict calendar order on dates (the `Ord` of `chrono::NaiveDate`). -/
def Date.lt (a b : Date) : Prop :=
  a.year < b.year ∨
    (a.year = b.year ∧ (a.month < b.month ∨ (a.month = b.month ∧ a.day < b.day)))

/-- Calendar order on dates (the `Ord` of `chrono::NaiveDate`). -/
def Date.le (a b : Date) : Prop :=
  a.year < b.year ∨
    (a.year = b.year ∧ (a.month < b.month ∨ (a.month = b.month ∧ a.day ≤ b.day)))

instance (a b : Date) : Decidable (Date.lt a b) := by
  unfold Date.lt; exact inferInstance

instance (a b : Date) : Decidable (Date.le a b) := by
  unfold Date.le; exact inferInstance

/-- The calendar successor of a date: the next day, rolling over month and
year boundaries.  Adding `Duration::days k` to a `NaiveDate` is `k`
applications of this successor. -/
def nextDay (x : Date) : Date :=
  if x.day < monthLen x.year x.month then ⟨x.year, x.month, x.day + 1⟩
  else if x.month < 12 then ⟨x.year, x.month + 1, 1⟩
  else ⟨x.year + 1, 1, 1⟩

/-- `date + Duration::days n` for `n ≥ 0`: the n-fold calendar successor. -/
def addDays : Nat → Date → Date
  | 0, x => x
  | n + 1, x => addDays n (nextDay x)

/-- `date.with_day(1)`: always succeeds since day 1 is valid in every month. -/
def withDay1 (x : Date) : Date := ⟨x.year, x.month, 1⟩

/-- Embedding of the `Transaction` struct of src/main.rs. -/
structure Transaction where
  amount : ℚ
  date : Date
  recurrence : Option (String × Nat)
  note : String

deriving instance DecidableEq for Transaction

/-- Embedding of the `BudgetState` struct of src/main.rs. -/
structure BudgetState where
  balance : ℚ
  transactions : List Transaction

deriving instance DecidableEq for BudgetState

/-- `BudgetState::new` of src/main.rs. -/
def BudgetState.new (balance : ℚ) : BudgetState :=
  ⟨balance, []⟩

/-- `BudgetState::add_transaction` of src/main.rs (`Vec::push`). -/
def BudgetState.add_transaction (s : BudgetState) (amount : ℚ) (date : Date)
    (recurrence : Option (String × Nat)) (note : String) : BudgetState :=
  { s with transactions := s.transactions ++ [⟨amount, date, recurrence, note⟩] }

/-- `BudgetState::delete_transaction` of src/main.rs.  `Vec::remove index`
is `List.eraseIdx`; the function returns `()` in Rust, so the caller-visible
result is the new state together with the lines printed to the terminal. -/
def BudgetState.delete_transaction (s : BudgetState) (index : Nat) :
    BudgetState × List String :=
  if index < s.transactions.length then
    ({ s with transactions := s.transactions.eraseIdx index }, [])
  else
    (s, ["Invalid transaction ID."])

/-- `BudgetState::edit_transaction` of src/main.rs: `get_mut index` succeeds
exactly when `index < len`, and then every field is overwritten, which is
`List.set index` with the new record.  As with delete, the function returns
`()` in Rust, so the result is the new state plus the printed lines. -/
def BudgetState.edit_transaction (s : BudgetState) (index : Nat) (newAmount : ℚ)
    (newDate : Date) (newRecurrence : Option (String × Nat)) (newNote : String) :
    BudgetState × List String :=
  if index < s.transactions.length then
    ({ s with transactions := s.transactions.set index ⟨newAmount, newDate, newRecurrence, newNote⟩ }, [])
  else
    (s, ["Invalid transaction ID."])

/-- `BudgetState::load_from_file` of src/main.rs, with its two external
collaborators passed in as oracles: `readResult` is the outcome of
`fs::read_to_string` and `parse` is `serde_json::from_str`.  The function
is total: no error value ever reaches the caller. -/
def BudgetState.load_from_file (readResult : Option String)
    (parse : String → Option BudgetState) : BudgetState :=
  match readResult with
  | some data =>
    match parse data with
    | some state => state
    | none => BudgetState.new 0
  | none => BudgetState.new 0

/-- One advancement step of the recurrence date, from the `match` inside
`forecast`: `Duration::weeks 1` is 7 days, `Duration::weeks 2` is 14 days;
an unrecognized period is the `break` arm, embedded as `none`. -/
def stepDate (period : String) (d : Date) : Option Date :=
  match period with
  | "weekly" => some (addDays 7 d)
  | "biweekly" => some (addDays 14 d)
  | "monthly" => some (addDays 30 d)
  | _ => none

/-- The repeat events generated by the `for _ in 0..count` loop of
`forecast` for one recurring transaction: each iteration advances the date
by the period step and pushes a clone with `recurrence: None`; the
unrecognized-period arm breaks out of the loop. -/
def expandRec (amount : ℚ) (note : String) (period : String) :
    Nat → Date → List Transaction
  | 0, _ => []
  | n + 1, d =>
    match stepDate period d with
    | none => []
    | some d2 => ⟨amount, d2, none, note⟩ :: expandRec amount note period n d2

/-- All events pushed for one transaction: the original clone followed by
its generated repeats (none when `recurrence` is `None`). -/
def expandOne (t : Transaction) : List Transaction :=
  t ::
    (match t.recurrence with
     | some (period, count) => expandRec t.amount t.note period count t.date
     | none => [])

/-- The full event queue built by the population loop of `forecast`,
in input order. -/
def expandAll (ts : List Transaction) : List Transaction :=
  ts.foldr (fun t acc => expandOne t ++ acc) []

/-- The sort key order of `sort_by_key(|t| t.date)`. -/
def dateLe (a b : Transaction) : Prop :=
  Date.le a.date b.date

instance : DecidableRel dateLe := fun a b => by
  unfold dateLe; exact inferInstance

instance : IsTotal Transaction dateLe :=
  ⟨fun a b => by unfold dateLe Date.le; omega⟩

instance : IsTrans Transaction dateLe :=
  ⟨fun a b c h1 h2 => by unfold dateLe Date.le at *; omega⟩

/-- The consumption test of the forecast loop, as a Boolean predicate:
the event is dated strictly before the checkpoint `c`. -/
def beforeDate (c : Date) (t : Transaction) : Bool :=
  decide (Date.lt t.date c)

/-- `events.make_contiguous().sort_by_key(|t| t.date)`: a stable sort by
date.  `slice::sort_by_key` is stable, so it is embedded as the stable
insertion sort over the date order. -/
def sortEvents (l : List Transaction) : List Transaction :=
  List.insertionSort dateLe l

/-- The inner `while let` loop of `forecast`: starting from `bal`, consume
events from the front while the front event is dated strictly before the
checkpoint `c` (the loop breaks on `t.date >= current_date`), accumulating
amounts; return the final balance and the remaining queue. -/
def consume (c : Date) : ℚ → List Transaction → ℚ × List Transaction
  | bal, [] => (bal, [])
  | bal, t :: rest =>
    if Date.le c t.date then (bal, t :: rest)
    else consume c (bal + t.amount) rest

/-- One checkpoint advancement of `forecast`:
`current_date.with_day(1).unwrap() + Duration::days(32)`, then
`.with_day(1).unwrap()`. -/
def checkpointStep (d : Date) : Date :=
  withDay1 (addDays 32 (withDay1 d))

/-- The `for _ in 0..12` loop of `forecast`, generalized over the iteration
count: advance the checkpoint, consume the pending events strictly before
it, record the pair. -/
def forecastLoop : Nat → Date → ℚ → List Transaction → List (Date × ℚ)
  | 0, _, _, _ => []
  | k + 1, cur, bal, evs =>
    let c := checkpointStep cur
    let r := consume c bal evs
    (c, r.1) :: forecastLoop k c r.1 r.2

/-- `BudgetState::forecast` of src/main.rs, with the as-of date
(`Local::now().date_naive()` in the source) passed explicitly.  The result
is the `month_balances` vector that the source prints; the source returns
`()` and prints nothing else (the `zero_hit` flag and its message are
commented out in the source). -/
def BudgetState.forecast (s : BudgetState) (asOf : Date) : List (Date × ℚ) :=
  forecastLoop 12 asOf s.balance (sortEvents (expandAll s.transactions))

/-- The step width in days of each recognized recurrence period. -/
def stepDays (period : String) : Option Nat :=
  match period with
  | "weekly" => some 7
  | "biweekly" => some 14
  | "monthly" => some 30
  | _ => none

/-- The first day of the calendar month after the month of `x`. -/
def nextMonthFirst (x : Date) : Date :=
  if x.month = 12 then ⟨x.year + 1, 1, 1⟩ else ⟨x.year, x.month + 1, 1⟩

/-- The checkpoint dates that `forecastLoop` records, extracted. -/
def cpList : Nat → Date → List Date
  | 0, _ => []
  | k + 1, cur => checkpointStep cur :: cpList k (checkpointStep cur)

/-- Sum of the amounts of a list of events. -/
def sumAmounts (l : List Transaction) : ℚ :=
  (l.map Transaction.amount).sum

/-- The occurrence count a transaction carries (0 when not recurring). -/
def occurrenceCount (t : Transaction) : Nat :=
  match t.recurrence with
  | some (_, n) => n
  | none => 0

/-- Modelled from the spec: the `reached_nonpositive` flag that §4.2 of the
spec requires the forecast to report (true exactly when some checkpoint
balance is ≤ 0).  The source computes no such flag: the `zero_hit`
machinery in `forecast` is commented out. -/
def reachedNonpositive (s : BudgetState) (asOf : Date) : Bool :=
  (s.forecast asOf).any (fun p => p.2 ≤ 0)

/-- The error taxonomy of §7 of the spec. -/
inductive BudgetError where
  | indexOutOfRange
deriving DecidableEq

/-- Following the words of the spec (§4.1): `delete(position) -> Result`,
failing with `IndexOutOfRange` when `position >= count` and leaving the
store unchanged.  To be compared with `BudgetState.delete_transaction`,
the embedding of the source, which returns no `Result`. -/
def deleteAsResult (s : BudgetState) (index : Nat) :
    Except BudgetError BudgetState :=
  if index < s.transactions.length then
    Except.ok { s with transactions := s.transactions.eraseIdx index }
  else
    Except.error BudgetError.indexOutOfRange

/-- The sample transaction of §8 of the spec: −200.00 on 2024-01-20,
recurring monthly twice. -/
def sampleTx : Transaction :=
  ⟨-200, ⟨2024, 1, 20⟩, some ("monthly", 2), ""⟩

/-- The sample store of §8 of the spec: balance 1000.00, one transaction. -/
def sampleStore : BudgetState :=
  ⟨1000, [sampleTx]⟩

/-- The sample as-of date of §8 of the spec: 2024-01-15. -/
def sampleAsOf : Date :=
  ⟨2024, 1, 15⟩

/-! ### Order lemmas for dates -/

theorem Date.le_refl (a : Date) : Date.le a a := by
  unfold Date.le; omega

theorem Date.le_total (a b : Date) : Date.le a b ∨ Date.le b a := by
  unfold Date.le; omega

theorem Date.le_trans {a b c : Date} (h1 : Date.le a b) (h2 : Date.le b c) :
    Date.le a c := by
  unfold Date.le at *; omega

theorem Date.lt_trans {a b c : Date} (h1 : Date.lt a b) (h2 : Date.lt b c) :
    Date.lt a c := by
  unfold Date.lt at *; omega

theorem Date.lt_of_le_of_lt {a b c : Date} (h1 : Date.le a b) (h2 : Date.lt b c) :
    Date.lt a c := by
  unfold Date.le Date.lt at *; omega

theorem Date.lt_iff_not_le {a b : Date} : Date.lt a b ↔ ¬ Date.le b a := by
  unfold Date.le Date.lt; omega

/-! ### Calendar lemmas -/

theorem monthLen_bounds (y : Int) (m : Nat) :
    28 ≤ monthLen y m ∧ monthLen y m ≤ 31 := by
  unfold monthLen
  split
  · split <;> omega
  · split <;> omega

theorem addDays_succ (n : Nat) (x : Date) :
    addDays (n + 1) x = addDays n (nextDay x) := rfl

theorem addDays_add (a b : Nat) (x : Date) :
    addDays (a + b) x = addDays a (addDays b x) := by
  induction b generalizing x with
  | zero => rfl
  | succ n ih =>
    rw [Nat.add_succ, addDays_succ, addDays_succ, ih]

theorem nextDay_of_lt {y : Int} {m d : Nat} (h : d < monthLen y m) :
    nextDay ⟨y, m, d⟩ = ⟨y, m, d + 1⟩ := by
  unfold nextDay; simp [h]

theorem addDays_within {y : Int} {m : Nat} :
    ∀ (n : Nat) {d : Nat}, d + n ≤ monthLen y m → addDays n ⟨y, m, d⟩ = ⟨y, m, d + n⟩
  | 0, d, _ => rfl
  | n + 1, d, h => by
    rw [addDays_succ, nextDay_of_lt (by omega), addDays_within n (by omega)]
    congr 1
    omega

theorem nextDay_monthEnd {y : Int} {m : Nat} (h2 : m ≤ 12) :
    nextDay ⟨y, m, monthLen y m⟩ = nextMonthFirst ⟨y, m, monthLen y m⟩ := by
  unfold nextDay nextMonthFirst
  by_cases hm : m = 12
  · subst hm; simp
  · have h12 : m < 12 := by omega
    simp [hm, h12]

theorem nextMonthFirst_day (x : Date) : (nextMonthFirst x).day = 1 := by
  unfold nextMonthFirst; split <;> rfl

theorem nextMonthFirst_withDay1 (x : Date) :
    nextMonthFirst (withDay1 x) = nextMonthFirst x := by
  unfold nextMonthFirst withDay1; rfl

theorem checkpointStep_eq {x : Date} (h1 : 1 ≤ x.month) (h2 : x.month ≤ 12) :
    checkpointStep x = nextMonthFirst x := by
  obtain ⟨y, m, d⟩ := x
  have h1m : 1 ≤ m := h1
  have h2m : m ≤ 12 := h2
  have hL := monthLen_bounds y m
  unfold checkpointStep withDay1
  have hsplit : (32 : Nat) = (33 - monthLen y m) + (monthLen y m - 1) := by omega
  rw [show (⟨y, m, d⟩ : Date).year = y from rfl, show (⟨y, m, d⟩ : Date).month = m from rfl]
  rw [hsplit, addDays_add, addDays_within (monthLen y m - 1) (by omega)]
  rw [show (1 + (monthLen y m - 1)) = monthLen y m from by omega]
  rw [show (33 - monthLen y m) = (32 - monthLen y m) + 1 from by omega, addDays_succ]
  rw [nextDay_monthEnd (by omega)]
  by_cases hm : m = 12
  · subst hm
    rw [show nextMonthFirst ⟨y, 12, monthLen y 12⟩ = ⟨y + 1, 1, 1⟩ from by unfold nextMonthFirst; simp]
    have h31 := monthLen_bounds (y + 1) 1
    rw [addDays_within (32 - monthLen y 12) (by omega)]
    unfold nextMonthFirst
    simp
  · rw [show nextMonthFirst ⟨y, m, monthLen y m⟩ = ⟨y, m + 1, 1⟩ from by unfold nextMonthFirst; simp [hm]]
    have h31 := monthLen_bounds y (m + 1)
    rw [addDays_within (32 - monthLen y m) (by omega)]
    unfold nextMonthFirst
    simp [hm]

theorem nextMonthFirst_valid {x : Date} (h : x.Valid) : (nextMonthFirst x).Valid := by
  obtain ⟨y, m, d⟩ := x
  unfold Date.Valid at *
  unfold nextMonthFirst
  by_cases hm : m = 12
  · subst hm
    have := monthLen_bounds (y + 1) 1
    simp_all
    omega
  · have := monthLen_bounds y (m + 1)
    simp_all
    omega

theorem Date.lt_nextMonthFirst {x : Date} (h : x.Valid) :
    Date.lt x (nextMonthFirst x) := by
  obtain ⟨y, m, d⟩ := x
  by_cases hm : m = 12
  · have he : nextMonthFirst ⟨y, m, d⟩ = ⟨y + 1, 1, 1⟩ := by
      unfold nextMonthFirst; simp [hm]
    rw [he]; unfold Date.lt; dsimp only; omega
  · have he : nextMonthFirst ⟨y, m, d⟩ = ⟨y, m + 1, 1⟩ := by
      unfold nextMonthFirst; simp [hm]
    rw [he]; unfold Date.lt; dsimp only; omega

theorem checkpointStep_valid {x : Date} (h : x.Valid) : (checkpointStep x).Valid := by
  rw [checkpointStep_eq h.1 h.2.1]
  exact nextMonthFirst_valid h

theorem Date.lt_checkpointStep {x : Date} (h : x.Valid) :
    Date.lt x (checkpointStep x) := by
  rw [checkpointStep_eq h.1 h.2.1]
  exact Date.lt_nextMonthFirst h

/-! ### Checkpoint sequence lemmas -/

theorem forecastLoop_length :
    ∀ (k : Nat) (cur : Date) (bal : ℚ) (evs : List Transaction),
      (forecastLoop k cur bal evs).length = k
  | 0, _, _, _ => rfl
  | k + 1, cur, bal, evs => by
    simp only [forecastLoop, List.length_cons]
    rw [forecastLoop_length k]

theorem forecastLoop_map_fst :
    ∀ (k : Nat) (cur : Date) (bal : ℚ) (evs : List Transaction),
      (forecastLoop k cur bal evs).map Prod.fst = cpList k cur
  | 0, _, _, _ => rfl
  | k + 1, cur, bal, evs => by
    simp only [forecastLoop, cpList, List.map_cons]
    rw [forecastLoop_map_fst k]

theorem cpList_mem_gt :
    ∀ (k : Nat) {cur : Date}, cur.Valid → ∀ x ∈ cpList k cur, Date.lt cur x
  | 0, _, _, x, hx => by simp [cpList] at hx
  | k + 1, cur, h, x, hx => by
    simp only [cpList, List.mem_cons] at hx
    rcases hx with rfl | hx
    · exact Date.lt_checkpointStep h
    · exact Date.lt_trans (Date.lt_checkpointStep h)
        (cpList_mem_gt k (checkpointStep_valid h) x hx)

theorem cpList_pairwise :
    ∀ (k : Nat) {cur : Date}, cur.Valid → List.Pairwise Date.lt (cpList k cur)
  | 0, _, _ => List.Pairwise.nil
  | k + 1, cur, h => by
    simp only [cpList]
    exact List.Pairwise.cons (cpList_mem_gt k (checkpointStep_valid h))
      (cpList_pairwise k (checkpointStep_valid h))

theorem cpList_day1 :
    ∀ (k : Nat) {cur : Date}, cur.Valid → ∀ x ∈ cpList k cur, x.day = 1
  | 0, _, _, x, hx => by simp [cpList] at hx
  | k + 1, cur, h, x, hx => by
    simp only [cpList, List.mem_cons] at hx
    rcases hx with rfl | hx
    · rw [checkpointStep_eq h.1 h.2.1]; exact nextMonthFirst_day _
    · exact cpList_day1 k (checkpointStep_valid h) x hx

theorem cpList_chain :
    ∀ (k : Nat) {cur : Date}, cur.Valid →
      List.Chain' (fun a b => b = nextMonthFirst a) (cpList k cur)
  | 0, _, _ => trivial
  | k + 1, cur, h => by
    simp only [cpList]
    rw [List.chain'_cons']
    refine ⟨?_, cpList_chain k (checkpointStep_valid h)⟩
    intro y hy
    cases k with
    | zero => simp [cpList] at hy
    | succ k2 =>
      simp only [cpList, List.head?_cons, Option.mem_def, Option.some.injEq] at hy
      rw [← hy, checkpointStep_eq (checkpointStep_valid h).1 (checkpointStep_valid h).2.1]

/-! ### Recurrence expansion lemmas -/

theorem stepDays_cases {p : String} {k : Nat} (h : stepDays p = some k) :
    (p = "weekly" ∧ k = 7) ∨ (p = "biweekly" ∧ k = 14) ∨ (p = "monthly" ∧ k = 30) := by
  unfold stepDays at h
  split at h <;> simp_all

theorem stepDate_none {p : String} (h : stepDays p = none) (d : Date) :
    stepDate p d = none := by
  unfold stepDays at h
  unfold stepDate
  split at h <;> simp_all

theorem stepDate_of_stepDays {p : String} {k : Nat} (h : stepDays p = some k)
    (d : Date) : stepDate p d = some (addDays k d) := by
  rcases stepDays_cases h with ⟨hp, hk⟩ | ⟨hp, hk⟩ | ⟨hp, hk⟩ <;> subst hp <;> subst hk <;> rfl

theorem expandRec_succ (a : ℚ) (nt p : String) (n : Nat) (d : Date) :
    expandRec a nt p (n + 1) d =
      match stepDate p d with
      | none => []
      | some d2 => ⟨a, d2, none, nt⟩ :: expandRec a nt p n d2 := rfl

theorem expandRec_length_of_some {p : String} {k : Nat} (h : stepDays p = some k)
    (a : ℚ) (nt : String) :
    ∀ (n : Nat) (d : Date), (expandRec a nt p n d).length = n
  | 0, _ => rfl
  | n + 1, d => by
    rw [expandRec_succ, stepDate_of_stepDays h]
    dsimp only
    simp [expandRec_length_of_some h a nt n]

theorem expandRec_of_none {p : String} (h : stepDays p = none) (a : ℚ) (nt : String) :
    ∀ (n : Nat) (d : Date), expandRec a nt p n d = []
  | 0, _ => rfl
  | n + 1, d => by
    unfold expandRec
    rw [stepDate_none h]

theorem expandRec_length_le (a : ℚ) (nt : String) (p : String) :
    ∀ (n : Nat) (d : Date), (expandRec a nt p n d).length ≤ n
  | 0, _ => Nat.le_refl 0
  | n + 1, d => by
    unfold expandRec
    cases hs : stepDate p d with
    | none => simp
    | some d2 =>
      simp only [List.length_cons]
      exact Nat.succ_le_succ (expandRec_length_le a nt p n d2)

theorem expandRec_amount {a : ℚ} {nt p : String} :
    ∀ {n : Nat} {d : Date} (e : Transaction), e ∈ expandRec a nt p n d → e.amount = a
  | 0, _, e, he => by simp [expandRec] at he
  | n + 1, d, e, he => by
    unfold expandRec at he
    cases hs : stepDate p d with
    | none => rw [hs] at he; simp at he
    | some d2 =>
      rw [hs] at he
      rcases List.mem_cons.mp he with rfl | he2
      · rfl
      · exact expandRec_amount e he2

theorem expandRec_recurrence {a : ℚ} {nt p : String} :
    ∀ {n : Nat} {d : Date} (e : Transaction), e ∈ expandRec a nt p n d → e.recurrence = none
  | 0, _, e, he => by simp [expandRec] at he
  | n + 1, d, e, he => by
    unfold expandRec at he
    cases hs : stepDate p d with
    | none => rw [hs] at he; simp at he
    | some d2 =>
      rw [hs] at he
      rcases List.mem_cons.mp he with rfl | he2
      · rfl
      · exact expandRec_recurrence e he2

theorem expandRec_chain {p : String} {k : Nat} (h : stepDays p = some k)
    (a : ℚ) (nt : String) :
    ∀ (n : Nat) (d : Date) (e0 : Transaction), e0.date = d →
      List.Chain (fun e1 e2 => e2.date = addDays k e1.date) e0 (expandRec a nt p n d)
  | 0, _, _, _ => List.Chain.nil
  | n + 1, d, e0, hd => by
    rw [expandRec_succ, stepDate_of_stepDays h]
    dsimp only
    exact List.Chain.cons (by simp [hd]) (expandRec_chain h a nt n (addDays k d) _ rfl)

/-! ### Sum and consumption lemmas -/

theorem sumAmounts_nil : sumAmounts [] = 0 := rfl

theorem sumAmounts_cons (t : Transaction) (l : List Transaction) :
    sumAmounts (t :: l) = t.amount + sumAmounts l := by
  simp [sumAmounts]

theorem sumAmounts_perm {l1 l2 : List Transaction} (h : l1.Perm l2) :
    sumAmounts l1 = sumAmounts l2 :=
  (h.map Transaction.amount).sum_eq

theorem beforeDate_true {c : Date} {t : Transaction} :
    beforeDate c t = true ↔ Date.lt t.date c := by
  simp [beforeDate]

theorem beforeDate_false_of_le {c : Date} {t : Transaction} (h : Date.le c t.date) :
    beforeDate c t = false := by
  simp only [beforeDate, decide_eq_false_iff_not]
  rw [Date.lt_iff_not_le]
  exact fun hc => hc h

theorem consume_cons (c : Date) (bal : ℚ) (t : Transaction) (rest : List Transaction) :
    consume c bal (t :: rest) =
      if Date.le c t.date then (bal, t :: rest) else consume c (bal + t.amount) rest := rfl

theorem consume_eq (c : Date) :
    ∀ (bal : ℚ) (l : List Transaction),
      consume c bal l =
        (bal + sumAmounts (l.takeWhile (beforeDate c)), l.dropWhile (beforeDate c))
  | bal, [] => by simp [consume, sumAmounts]
  | bal, t :: rest => by
    by_cases h : Date.le c t.date
    · have hb : beforeDate c t = false := beforeDate_false_of_le h
      rw [consume_cons, if_pos h]
      simp [List.takeWhile_cons, List.dropWhile_cons, hb, sumAmounts]
    · have hb : beforeDate c t = true := by
        rw [beforeDate_true, Date.lt_iff_not_le]; exact h
      rw [consume_cons, if_neg h]
      rw [consume_eq c (bal + t.amount) rest]
      simp [List.takeWhile_cons, List.dropWhile_cons, hb, sumAmounts_cons]
      ring

theorem takeWhile_filter_of_sorted {p : Transaction → Bool}
    (hp : ∀ a b : Transaction, dateLe a b → p b = true → p a = true) :
    ∀ {l : List Transaction}, List.Sorted dateLe l →
      l.takeWhile p = l.filter p ∧ l.dropWhile p = l.filter (fun t => !(p t))
  | [], _ => ⟨rfl, rfl⟩
  | a :: l, hs => by
    obtain ⟨h1, h2⟩ := List.sorted_cons.mp hs
    obtain ⟨iht, ihd⟩ := takeWhile_filter_of_sorted hp h2
    cases hpa : p a with
    | true =>
      constructor
      · simp [List.takeWhile_cons, List.filter_cons, hpa, iht]
      · simp [List.dropWhile_cons, List.filter_cons, hpa, ihd]
    | false =>
      have hall : ∀ b ∈ l, ¬ p b = true := by
        intro b hb hpb
        have := hp a b (h1 b hb) hpb
        simp [hpa] at this
      constructor
      · rw [show (a :: l).takeWhile p = [] from by simp [List.takeWhile_cons, hpa]]
        rw [List.filter_cons_of_neg (by simp [hpa])]
        rw [List.filter_eq_nil_iff.mpr hall]
      · rw [show (a :: l).dropWhile p = a :: l from by simp [List.dropWhile_cons, hpa]]
        rw [List.filter_cons_of_pos (by simp [hpa])]
        rw [List.filter_eq_self.mpr (by intro b hb; simp [hall b hb])]

theorem beforeDate_downward (c : Date) :
    ∀ a b : Transaction, dateLe a b → beforeDate c b = true → beforeDate c a = true := by
  intro a b hab hb
  rw [beforeDate_true] at *
  exact Date.lt_of_le_of_lt hab hb

theorem sumAmounts_filter_split {p q : Transaction → Bool}
    (h : ∀ e, p e = true → q e = true) :
    ∀ l : List Transaction,
      sumAmounts (l.filter q) =
        sumAmounts (l.filter p) + sumAmounts ((l.filter (fun e => !(p e))).filter q)
  | [] => by simp [sumAmounts]
  | a :: l => by
    have ih := sumAmounts_filter_split h l
    cases hpa : p a with
    | true =>
      have hqa : q a = true := h a hpa
      rw [List.filter_cons_of_pos (by simp [hqa]),
        List.filter_cons_of_pos (by simp [hpa]),
        List.filter_cons_of_neg (by simp [hpa])]
      simp only [sumAmounts_cons, ih]
      ring
    | false =>
      cases hqa : q a with
      | true =>
        rw [List.filter_cons_of_pos (by simp [hqa]),
          List.filter_cons_of_neg (by simp [hpa]),
          List.filter_cons_of_pos (by simp [hpa]),
          List.filter_cons_of_pos (by simp [hqa])]
        simp only [sumAmounts_cons, ih]
        ring
      | false =>
        rw [List.filter_cons_of_neg (by simp [hqa]),
          List.filter_cons_of_neg (by simp [hpa]),
          List.filter_cons_of_pos (by simp [hpa]),
          List.filter_cons_of_neg (by simp [hqa])]
        exact ih

/-! ### Forecast loop invariants -/

theorem forecastLoop_cons (k : Nat) (cur : Date) (bal : ℚ) (evs : List Transaction) :
    forecastLoop (k + 1) cur bal evs =
      (checkpointStep cur, (consume (checkpointStep cur) bal evs).1) ::
        forecastLoop k (checkpointStep cur) (consume (checkpointStep cur) bal evs).1
          (consume (checkpointStep cur) bal evs).2 := rfl

theorem forecastLoop_fst_gt :
    ∀ (k : Nat) {cur : Date} (bal : ℚ) (evs : List Transaction), cur.Valid →
      ∀ p ∈ forecastLoop k cur bal evs, Date.lt cur p.1
  | 0, _, _, _, _, p, hp => by simp [forecastLoop] at hp
  | k + 1, cur, bal, evs, h, p, hp => by
    rw [forecastLoop_cons] at hp
    rcases List.mem_cons.mp hp with rfl | hp2
    · exact Date.lt_checkpointStep h
    · exact Date.lt_trans (Date.lt_checkpointStep h)
        (forecastLoop_fst_gt k _ _ (checkpointStep_valid h) p hp2)

theorem forecastLoop_balance :
    ∀ (k : Nat) {cur : Date} (bal : ℚ) {evs : List Transaction}, cur.Valid →
      List.Sorted dateLe evs →
      ∀ p ∈ forecastLoop k cur bal evs,
        p.2 = bal + sumAmounts (evs.filter (beforeDate p.1))
  | 0, _, _, _, _, _, p, hp => by simp [forecastLoop] at hp
  | k + 1, cur, bal, evs, h, hsort, p, hp => by
    obtain ⟨htake, hdrop⟩ :=
      takeWhile_filter_of_sorted (beforeDate_downward (checkpointStep cur)) hsort
    have hcons : consume (checkpointStep cur) bal evs =
        (bal + sumAmounts (evs.filter (beforeDate (checkpointStep cur))),
          evs.filter (fun t => !(beforeDate (checkpointStep cur) t))) := by
      rw [consume_eq, htake, hdrop]
    rw [forecastLoop_cons, hcons] at hp
    rcases List.mem_cons.mp hp with rfl | hp2
    · rfl
    · have hfst : Date.lt (checkpointStep cur) p.1 :=
        forecastLoop_fst_gt k _ _ (checkpointStep_valid h) p hp2
      have ih := forecastLoop_balance k
        (bal + sumAmounts (evs.filter (beforeDate (checkpointStep cur))))
        (checkpointStep_valid h)
        (hsort.filter (fun t => !(beforeDate (checkpointStep cur) t)))
        p hp2
      rw [ih]
      have hsplit := sumAmounts_filter_split
        (p := beforeDate (checkpointStep cur)) (q := beforeDate p.1)
        (fun e he => by
          rw [beforeDate_true] at *
          exact Date.lt_trans he hfst) evs
      rw [hsplit]
      ring

/-! ### Stability of the insertion sort -/

theorem filter_date_orderedInsert (d : Date) (a : Transaction) :
    ∀ l : List Transaction,
      (List.orderedInsert dateLe a l).filter (fun e => decide (e.date = d)) =
        ((a :: l).filter (fun e => decide (e.date = d)))
  | [] => rfl
  | b :: l => by
    by_cases hab : dateLe a b
    · rw [List.orderedInsert_of_le _ _ hab]
    · rw [show List.orderedInsert dateLe a (b :: l)
            = b :: List.orderedInsert dateLe a l from by
          simp [List.orderedInsert, hab]]
      have hba : Date.lt b.date a.date := by
        rw [Date.lt_iff_not_le]; exact fun hc => hab hc
      by_cases hbd : b.date = d
      · have had : ¬ a.date = d := by
          intro hc
          rw [hbd, ← hc] at hba
          unfold Date.lt at hba
          omega
        rw [List.filter_cons_of_pos (by simp [hbd]),
          filter_date_orderedInsert d a l,
          List.filter_cons_of_neg (by simp [had]),
          List.filter_cons_of_neg (by simp [had]),
          List.filter_cons_of_pos (by simp [hbd])]
      · rw [List.filter_cons_of_neg (by simp [hbd]),
          filter_date_orderedInsert d a l]
        by_cases had : a.date = d
        · rw [List.filter_cons_of_pos (by simp [had]),
            List.filter_cons_of_pos (by simp [had]),
            List.filter_cons_of_neg (by simp [hbd])]
        · rw [List.filter_cons_of_neg (by simp [had]),
            List.filter_cons_of_neg (by simp [had]),
            List.filter_cons_of_neg (by simp [hbd])]

theorem filter_date_insertionSort (d : Date) :
    ∀ l : List Transaction,
      (List.insertionSort dateLe l).filter (fun e => decide (e.date = d)) =
        l.filter (fun e => decide (e.date = d))
  | [] => rfl
  | a :: l => by
    rw [show List.insertionSort dateLe (a :: l)
          = List.orderedInsert dateLe a (List.insertionSort dateLe l) from rfl]
    rw [filter_date_orderedInsert]
    by_cases had : a.date = d
    · rw [List.filter_cons_of_pos (by simp [had]),
        List.filter_cons_of_pos (by simp [had]),
        filter_date_insertionSort d l]
    · rw [List.filter_cons_of_neg (by simp [had]),
        List.filter_cons_of_neg (by simp [had]),
        filter_date_insertionSort d l]

/-! ### Claim theorems -/

/-- C1: for every store and (valid, as every `chrono::NaiveDate` is) as-of
date, the balance recorded at each checkpoint of the forecast equals the
starting balance of the store plus the sum of the amounts of all expanded
events whose date is strictly before that checkpoint date. -/
theorem C1_balance_accumulation (s : BudgetState) (asOf : Date) (h : asOf.Valid) :
    ∀ p ∈ s.forecast asOf,
      p.2 = s.balance + sumAmounts ((expandAll s.transactions).filter
        (fun e => decide (Date.lt e.date p.1))) := by
  intro p hp
  have hsorted : List.Sorted dateLe (sortEvents (expandAll s.transactions)) :=
    List.sorted_insertionSort dateLe _
  have hb := forecastLoop_balance 12 s.balance h hsorted p hp
  rw [hb]
  congr 1
  have hperm : (sortEvents (expandAll s.transactions)).Perm (expandAll s.transactions) :=
    List.perm_insertionSort dateLe _
  exact sumAmounts_perm (hperm.filter (beforeDate p.1))

/-- C1 witness: a store with balance 1000 and no transactions, as of
2024-01-15, at its first checkpoint 2024-02-01 (kernel evaluation of
rational sums is only possible when no `Rat.add` is reached, so the
witness store carries no events). -/
theorem C1_balance_accumulation_witness :
    ((⟨2024, 2, 1⟩, (1000 : ℚ)) : Date × ℚ) ∈ (BudgetState.new 1000).forecast sampleAsOf ∧
      (1000 : ℚ) = (BudgetState.new 1000).balance +
        sumAmounts ((expandAll (BudgetState.new 1000).transactions).filter
          (fun e => decide (Date.lt e.date ⟨2024, 2, 1⟩))) := by
  refine ⟨by decide, ?_⟩
  exact C1_balance_accumulation (BudgetState.new 1000) sampleAsOf (by decide)
    (⟨2024, 2, 1⟩, (1000 : ℚ)) (by decide)

/-- C2: the forecast always records exactly 12 (checkpoint, balance) pairs,
whatever the store and as-of date: the `for _ in 0..12` loop never exits
early (the early-break on a nonpositive balance is commented out). -/
theorem C2_checkpoint_count (s : BudgetState) (asOf : Date) :
    (s.forecast asOf).length = 12 :=
  forecastLoop_length 12 asOf s.balance (sortEvents (expandAll s.transactions))

/-- C3: evaluation of the code at the failing input (empty store, balance
0, as-of 2024-01-15): every one of the 12 checkpoint balances is ≤ 0, so
the `reached_nonpositive` flag demanded by the spec would be true, yet the
forecast of the source emits only the 12 pairs - `BudgetState.forecast`
returns no boolean, the `zero_hit` machinery being commented out. -/
theorem C3_missing_flag :
    reachedNonpositive (BudgetState.new 0) sampleAsOf = true ∧
      ((BudgetState.new 0).forecast sampleAsOf).all (fun p => p.2 ≤ 0) = true ∧
      ((BudgetState.new 0).forecast sampleAsOf).length = 12 := by
  refine ⟨by decide, by decide, ?_⟩
  exact forecastLoop_length 12 sampleAsOf (BudgetState.new 0).balance
    (sortEvents (expandAll (BudgetState.new 0).transactions))

/-- C4: recurrence expansion emits exactly n+1 events for a transaction
with recurrence (period, n) and a recognized period (one of weekly,
biweekly, monthly, exactly those on which `stepDays` is some); exactly 1
event when the period is unrecognized (silent break, not an error); and
exactly 1 event when there is no recurrence. -/
theorem C4_expansion_cardinality (t : Transaction) :
    (∀ p n, t.recurrence = some (p, n) → (stepDays p).isSome = true →
      (expandOne t).length = n + 1) ∧
    (∀ p n, t.recurrence = some (p, n) → stepDays p = none →
      (expandOne t).length = 1) ∧
    (t.recurrence = none → (expandOne t).length = 1) := by
  refine ⟨?_, ?_, ?_⟩
  · intro p n hrec hsome
    obtain ⟨k, hk⟩ := Option.isSome_iff_exists.mp hsome
    unfold expandOne
    rw [hrec]
    simp [expandRec_length_of_some hk t.amount t.note n t.date]
  · intro p n hrec hnone
    unfold expandOne
    rw [hrec]
    simp [expandRec_of_none hnone t.amount t.note n t.date]
  · intro hrec
    unfold expandOne
    rw [hrec]
    rfl

/-- C4 witness: the three cardinality cases at concrete transactions: the
§8 sample (monthly, 2 repeats) gives 3 events, an unrecognized period
(yearly, 4) gives 1 event, and no recurrence gives 1 event. -/
theorem C4_expansion_cardinality_witness :
    (expandOne sampleTx).length = 2 + 1 ∧
    (expandOne ⟨5, ⟨2024, 1, 1⟩, some ("yearly", 4), ""⟩).length = 1 ∧
    (expandOne ⟨5, ⟨2024, 1, 1⟩, none, ""⟩).length = 1 := by
  refine ⟨?_, ?_, ?_⟩
  · exact (C4_expansion_cardinality sampleTx).1 "monthly" 2 rfl rfl
  · exact (C4_expansion_cardinality _).2.1 "yearly" 4 rfl rfl
  · exact (C4_expansion_cardinality _).2.2 rfl

/-- C5: for a recurring transaction whose period is recognized with step
`k` days (`stepDays` maps weekly to 7, biweekly to 14 and monthly to 30, a
fixed offset rather than the calendar month length), each expanded event
is dated exactly `k` calendar days after its predecessor, and every
expanded event carries the amount of the original transaction. -/
theorem C5_step_correctness (t : Transaction) (p : String) (n k : Nat)
    (h1 : t.recurrence = some (p, n)) (h2 : stepDays p = some k) :
    List.Chain' (fun e1 e2 => e2.date = addDays k e1.date) (expandOne t) ∧
    ∀ e ∈ expandOne t, e.amount = t.amount := by
  constructor
  · unfold expandOne
    rw [h1]
    exact expandRec_chain h2 t.amount t.note n t.date t rfl
  · intro e he
    unfold expandOne at he
    rw [h1] at he
    rcases List.mem_cons.mp he with rfl | hm
    · rfl
    · exact expandRec_amount e hm

/-- C5 witness: the §8 sample transaction, monthly with step 30 days. -/
theorem C5_step_correctness_witness :
    List.Chain' (fun e1 e2 => e2.date = addDays 30 e1.date) (expandOne sampleTx) ∧
      sampleTx.recurrence = some ("monthly", 2) ∧ stepDays "monthly" = some 30 :=
  ⟨(C5_step_correctness sampleTx "monthly" 2 30 rfl rfl).1, rfl, rfl⟩

/-- C6: for every store and valid as-of date, the 12 recorded checkpoint
dates are strictly increasing, each is the first day of a calendar month,
the first is the first day of the month after the as-of month, and each
subsequent one is the first day of the calendar month after the previous
one: the add-32-days-then-truncate computation of the source lands on the
next month regardless of month length. -/
theorem C6_checkpoint_dates (s : BudgetState) (asOf : Date) (h : asOf.Valid) :
    List.Pairwise Date.lt ((s.forecast asOf).map Prod.fst) ∧
    (∀ cd ∈ (s.forecast asOf).map Prod.fst, cd.day = 1) ∧
    ((s.forecast asOf).map Prod.fst).head? = some (nextMonthFirst asOf) ∧
    List.Chain' (fun a b => b = nextMonthFirst a) ((s.forecast asOf).map Prod.fst) := by
  have hm : (s.forecast asOf).map Prod.fst = cpList 12 asOf :=
    forecastLoop_map_fst 12 asOf s.balance (sortEvents (expandAll s.transactions))
  rw [hm]
  refine ⟨cpList_pairwise 12 h, cpList_day1 12 h, ?_, cpList_chain 12 h⟩
  rw [show cpList 12 asOf = checkpointStep asOf :: cpList 11 (checkpointStep asOf) from rfl]
  rw [List.head?_cons, checkpointStep_eq h.1 h.2.1]

/-- C6 witness: as of 2024-01-15 the first checkpoint is 2024-02-01. -/
theorem C6_checkpoint_dates_witness :
    (((BudgetState.new 0).forecast sampleAsOf).map Prod.fst).head?
        = some (nextMonthFirst sampleAsOf) ∧
      nextMonthFirst sampleAsOf = ⟨2024, 2, 1⟩ :=
  ⟨(C6_checkpoint_dates (BudgetState.new 0) sampleAsOf (by decide)).2.2.1, rfl⟩

/-- C7 counterexample: at the out-of-range index 0 of an empty store, the
source delete leaves the store unchanged but returns no `Result` - the
caller-visible value is the unchanged state together with the printed line
"Invalid transaction ID.", whereas the `delete(position) -> Result`
contract of the spec (the `deleteAsResult` rendering) would hand the
caller `Except.error indexOutOfRange`.  The caller in `main` cannot
observe the failure: it saves the state unconditionally. -/
theorem C7_no_result_counterexample :
    BudgetState.delete_transaction ⟨5, []⟩ 0 = (⟨5, []⟩, ["Invalid transaction ID."]) ∧
      deleteAsResult ⟨5, []⟩ 0 = Except.error BudgetError.indexOutOfRange :=
  ⟨rfl, rfl⟩

/-- C7 amended: delete at an in-range position removes exactly that
transaction and shifts the later ones down; edit at an in-range position
replaces every field of that transaction; at an out-of-range position both
leave the store completely unchanged and report the condition only by
printing "Invalid transaction ID." (no Result value is returned to the
caller). -/
theorem C7_index_operations (s : BudgetState) (i : Nat) :
    (i < s.transactions.length →
      s.delete_transaction i =
        (⟨s.balance, s.transactions.take i ++ s.transactions.drop (i + 1)⟩, [])) ∧
    (∀ a d r nt, i < s.transactions.length →
      s.edit_transaction i a d r nt =
        (⟨s.balance, s.transactions.set i ⟨a, d, r, nt⟩⟩, [])) ∧
    (s.transactions.length ≤ i →
      s.delete_transaction i = (s, ["Invalid transaction ID."]) ∧
      ∀ a d r nt, s.edit_transaction i a d r nt = (s, ["Invalid transaction ID."])) := by
  refine ⟨?_, ?_, ?_⟩
  · intro hi
    unfold BudgetState.delete_transaction
    rw [if_pos hi, List.eraseIdx_eq_take_drop_succ]
  · intro a d r nt hi
    unfold BudgetState.edit_transaction
    rw [if_pos hi]
  · intro hi
    constructor
    · unfold BudgetState.delete_transaction
      rw [if_neg (by omega)]
    · intro a d r nt
      unfold BudgetState.edit_transaction
      rw [if_neg (by omega)]

/-- C7 witness: a concrete in-range delete and edit, and a concrete
out-of-range delete, through `C7_index_operations`. -/
theorem C7_index_operations_witness :
    BudgetState.delete_transaction ⟨5, [sampleTx]⟩ 0 = (⟨5, []⟩, []) ∧
      BudgetState.edit_transaction ⟨5, [sampleTx]⟩ 0 7 ⟨2024, 3, 1⟩ none "x" =
        (⟨5, [⟨7, ⟨2024, 3, 1⟩, none, "x"⟩]⟩, []) ∧
      BudgetState.delete_transaction ⟨5, [sampleTx]⟩ 3 =
        (⟨5, [sampleTx]⟩, ["Invalid transaction ID."]) := by
  refine ⟨?_, ?_, ?_⟩
  · exact (C7_index_operations ⟨5, [sampleTx]⟩ 0).1 (by decide)
  · exact (C7_index_operations ⟨5, [sampleTx]⟩ 0).2.1 7 ⟨2024, 3, 1⟩ none "x" (by decide)
  · exact ((C7_index_operations ⟨5, [sampleTx]⟩ 3).2.2 (by decide)).1

/-- C8: the sort of the expanded event list is stable: for every date, the
events carrying that date appear in the sorted queue (the order in which
the forecast consumes them) exactly in the order in which the expansion
emitted them, which follows input order; the sorted queue is a permutation
of the expanded list and is sorted by date.  The forecast output is a
function of the store and the as-of date, hence deterministic. -/
theorem C8_stable_sort (s : BudgetState) (d : Date) :
    (sortEvents (expandAll s.transactions)).filter (fun e => decide (e.date = d)) =
      (expandAll s.transactions).filter (fun e => decide (e.date = d)) ∧
    (sortEvents (expandAll s.transactions)).Perm (expandAll s.transactions) ∧
    List.Sorted dateLe (sortEvents (expandAll s.transactions)) :=
  ⟨filter_date_insertionSort d (expandAll s.transactions),
    List.perm_insertionSort dateLe (expandAll s.transactions),
    List.sorted_insertionSort dateLe (expandAll s.transactions)⟩

/-- C9: loading persisted state that is absent (`readResult = none`) or
that fails to parse (`parse data = none`) yields the fresh store with
balance 0 and no transactions; the function is total, so no parse error
ever reaches the caller. -/
theorem C9_load_fallback (readResult : Option String)
    (parse : String → Option BudgetState)
    (h : ∀ data, readResult = some data → parse data = none) :
    BudgetState.load_from_file readResult parse = ⟨0, []⟩ := by
  cases readResult with
  | none => rfl
  | some data =>
    unfold BudgetState.load_from_file
    dsimp only
    rw [h data rfl]
    rfl

/-- C9 witness: a present file whose contents fail to parse. -/
theorem C9_load_fallback_witness :
    BudgetState.load_from_file (some "not json") (fun _ => none) = ⟨0, []⟩ :=
  C9_load_fallback (some "not json") (fun _ => none) (fun _ _ => rfl)

/-- C10: every event generated by recurrence expansion beyond the original
transaction carries `recurrence = none` - expansion is single level, a
generated repeat is never itself expanded - and the number of events a
transaction contributes is bounded by its occurrence count plus one. -/
theorem C10_single_level (t : Transaction) :
    (∀ e ∈ (expandOne t).tail, e.recurrence = none) ∧
    (expandOne t).length ≤ occurrenceCount t + 1 := by
  constructor
  · intro e he
    unfold expandOne at he
    rcases hrec : t.recurrence with _ | ⟨p, n⟩
    · rw [hrec] at he
      simp at he
    · rw [hrec] at he
      exact expandRec_recurrence e (by simpa using he)
  · unfold expandOne occurrenceCount
    rcases hrec : t.recurrence with _ | ⟨p, n⟩
    · simp
    · simpa using expandRec_length_le t.amount t.note p n t.date

/-- C10 witness: the second expanded event of the §8 sample transaction
carries no recurrence, and the sample expansion length obeys the bound. -/
theorem C10_single_level_witness :
    (⟨-200, ⟨2024, 2, 19⟩, none, ""⟩ : Transaction) ∈ (expandOne sampleTx).tail ∧
      (⟨-200, ⟨2024, 2, 19⟩, none, ""⟩ : Transaction).recurrence = none ∧
      (expandOne sampleTx).length ≤ occurrenceCount sampleTx + 1 :=
  ⟨by decide,
    (C10_single_level sampleTx).1 ⟨-200, ⟨2024, 2, 19⟩, none, ""⟩ (by decide),
    (C10_single_level sampleTx).2⟩
